import Mathlib

/-
  Verification of the signal/slot dispatch primitive of src/signals.hpp.

  Embedding conventions.  Handler code is arbitrary C++ acting on state it
  shares with other handlers and with the emitter; we model that state as a
  single world value of type σ.  A connected slot is then a function
  `α → σ → σ × Option ε`: given the emitted payload and the current world it
  produces the updated world and, optionally, an exception it raised (the
  world component records the side effects the handler performed before
  throwing).  The `signal` structure holds the `funcs` vector of
  src/signals.hpp as a Lean list; `connect` is `funcs.push_back`.

  `emit` has two compile-time branches selected by the `etype` template
  argument (src/signals.hpp lines 41-44):
  - synch: the loop body calls each handler directly, in vector order, so
    handler N finishes before handler N+1 starts, and a C++ exception
    unwinds out of `emit` at once.  `runSynch`/`signal.emitSynch` embed
    this, additionally recording the invocation trace: the list of
    (handler index, payload) pairs in invocation order.
  - asynch: the loop launches every handler with `std::async` and stores
    the futures; the futures vector goes out of scope at the end of
    `emit`, and each `std::future` destructor blocks until its task has
    completed (std::async, launch::async semantics), so every handler
    invocation has finished when `emit` returns.  The tasks run
    concurrently; we model each handler invocation as one atomic step and
    let the thread scheduler choose the interleaving: `runSched` executes
    the handlers in the order given by a schedule, a list of task indices
    chosen by the scheduler (for a normal run, a permutation of
    0..funcs.size()-1).  An exception raised inside a task is stored in
    that task's future; `std::future::~future` never rethrows, so the
    captured exceptions are discarded when the futures vector is
    destroyed and `emit` returns normally: `signal.emitAsynch` drops the
    collected error list and reports no exception.
-/

set_option maxHeartbeats 1000000

namespace signals

/-- Delivery policy, mirroring `enum emit_type{synch,asynch}` of
src/signals.hpp line 17. -/
inductive emit_type where
  | synch
  | asynch
deriving DecidableEq

/-- A connected slot: from the payload and the current shared world, the
updated world together with the exception the handler raised, if any. -/
abbrev Slot (σ α ε : Type) : Type := α → σ → σ × Option ε

/-- The signal class of src/signals.hpp lines 19-47: its only state is the
vector of connected functions. -/
structure signal (σ α ε : Type) where
  funcs : List (Slot σ α ε)

variable {σ α ε : Type}

/-- The result of one `emit` call: the final shared world, the trace of
handler invocations (handler index, payload received) in the order the
invocations were executed, and the exception escaping to the emitter, if
any. -/
structure EmitResult (σ α ε : Type) where
  world : σ
  trace : List (Nat × α)
  exc : Option ε
deriving Repr

/-- signal::connect (src/signals.hpp lines 27-29): `funcs.push_back(fn)`,
appending the slot at the end of the vector.  It cannot fail. -/
def signal.connect (s : signal σ α ε) (fn : Slot σ α ε) : signal σ α ε :=
  { s with funcs := s.funcs ++ [fn] }

/-- Iterated `connect`: hand each callback of the list to
`signal.connect` in order. -/
def connectAll (s : signal σ α ε) (cbs : List (Slot σ α ε)) : signal σ α ε :=
  cbs.foldl signal.connect s

/-- The synchronous branch of signal::emit (src/signals.hpp lines 36-45
with etype==synch): walk `funcs` from the front, invoking each handler
with the payload and waiting for it to return before moving on; `i` is the
vector index of the first handler of `fs`.  A raised exception stops the
loop at once and unwinds to the caller (field `exc`); the side effects the
throwing handler performed first are kept in the world. -/
def runSynch (a : α) (fs : List (Slot σ α ε)) (i : Nat) (w : σ) :
    EmitResult σ α ε :=
  match fs with
  | [] => ⟨w, [], none⟩
  | f :: fs =>
    match f a w with
    | (w1, some e) => ⟨w1, [(i, a)], some e⟩
    | (w1, none) =>
      let r := runSynch a fs (i + 1) w1
      ⟨r.world, (i, a) :: r.trace, r.exc⟩

/-- signal::emit under the synch policy.  The method reads `funcs` and
never writes it, so the signal component of the result is the receiver
unchanged. -/
def signal.emitSynch (s : signal σ α ε) (a : α) (w : σ) :
    signal σ α ε × EmitResult σ α ε :=
  (s, runSynch a s.funcs 0 w)

/-- Execution of the tasks launched by the asynchronous branch of
signal::emit, one atomic step per handler, in the interleaving chosen by
the thread scheduler: `sched` lists the task indices in execution order.
Each task invokes its handler with the payload; an exception raised inside
a task is captured in that task's future (third component) and does not
stop the other tasks.  Indices outside the vector correspond to no task
and are skipped. -/
def runSched (fs : List (Slot σ α ε)) (a : α) (sched : List Nat) (w : σ) :
    σ × List (Nat × α) × List ε :=
  match sched with
  | [] => (w, [], [])
  | i :: is =>
    match fs.get? i with
    | none => runSched fs a is w
    | some f =>
      let p := f a w
      let r := runSched fs a is p.1
      (r.1, (i, a) :: r.2.1, p.2.toList ++ r.2.2)

/-- signal::emit under the asynch policy (src/signals.hpp lines 34, 41-42,
45-46): all tasks are launched, the futures vector is destroyed when
`emit` returns, and each future destructor blocks until its task is done,
so the returned world reflects every completed invocation; the exceptions
captured in the futures are discarded by the destructors
(std::future::~future never rethrows), hence `exc = none` always.  The
signal component is the receiver unchanged: `emit` never writes `funcs`. -/
def signal.emitAsynch (s : signal σ α ε) (sched : List Nat) (a : α) (w : σ) :
    signal σ α ε × EmitResult σ α ε :=
  let r := runSched s.funcs a sched w
  (s, ⟨r.1, r.2.1, none⟩)

/-- K successive synchronous emit calls with the given payloads; returns
the final world and the concatenation of the K invocation traces. -/
def runSynchK (fs : List (Slot σ α ε)) (as : List α) (w : σ) :
    σ × List (Nat × α) :=
  match as with
  | [] => (w, [])
  | a :: as =>
    let r := runSynch a fs 0 w
    let rest := runSynchK fs as r.world
    (rest.1, r.trace ++ rest.2)

/-- K successive asynchronous emit calls, each with its scheduler-chosen
interleaving and its payload; returns the final world and the
concatenation of the K invocation traces. -/
def runAsynchK (fs : List (Slot σ α ε)) (emits : List (List Nat × α))
    (w : σ) : σ × List (Nat × α) :=
  match emits with
  | [] => (w, [])
  | e :: es =>
    let r := runSched fs e.2 e.1 w
    let rest := runAsynchK fs es r.1
    (rest.1, r.2.1 ++ rest.2)

/-- Number of invocations of the handler at vector index `i` recorded in a
trace. -/
def countIdx (tr : List (Nat × α)) (i : Nat) : Nat :=
  (tr.map Prod.fst).count i

/-- The trace expected from K failure-free synchronous emits over n
handlers: for each payload in order, one invocation of every handler
0..n-1 in vector order with that payload. -/
def fullTrace (n : Nat) (as : List α) : List (Nat × α) :=
  match as with
  | [] => []
  | a :: as => (List.range n).map (fun i => (i, a)) ++ fullTrace n as

/-- Test fixture: a handler that appends the received payload to a shared
log and returns normally. -/
def slotLog : Slot (List Nat) Nat Unit :=
  fun a w => (w ++ [a], none)

/-- Test fixture: a handler that appends the received payload to a shared
log and then raises an exception. -/
def slotFail : Slot (List Nat) Nat Unit :=
  fun a w => (w ++ [a], some ())

/-- Test fixture for the spec scenario: a handler that appends the
received integer to a shared log together with its own tag. -/
def tagSlot (t : String) : Slot (List (String × Int)) Int Unit :=
  fun a w => (w ++ [(t, a)], none)

/-- Test fixture for the spec scenario: a fresh synchronous signal with
the two tagged handlers connected, tag A first, tag B second. -/
def sigAB : signal (List (String × Int)) Int Unit :=
  ((signal.mk []).connect (tagSlot "A")).connect (tagSlot "B")

/-- Destroying a futures vector built from an empty funcs vector joins
nothing: running any schedule over no handlers leaves the world untouched
and produces no invocation and no captured exception. -/
theorem runSched_nil (a : α) (sched : List Nat) (w : σ) :
    runSched ([] : List (Slot σ α ε)) a sched w = (w, [], []) := by
  induction sched with
  | nil => rfl
  | cons i is ih => simp [runSched, ih]

/-- When a synchronous emit raises no exception, the recorded trace is one
invocation of every handler in vector order, each receiving the payload,
and the final world is the left fold of the handlers over the initial
world (handler N+1 starts from the world handler N finished with). -/
theorem runSynch_noerr (a : α) (fs : List (Slot σ α ε)) (i : Nat) (w : σ)
    (h : (runSynch a fs i w).exc = none) :
    (runSynch a fs i w).trace = (List.range' i fs.length).map (fun j => (j, a)) ∧
    (runSynch a fs i w).world = fs.foldl (fun w f => (f a w).1) w := by
  induction fs generalizing i w with
  | nil => simp [runSynch]
  | cons f fs ih =>
    rcases hfa : f a w with ⟨w1, e1⟩
    cases e1 with
    | some e =>
      rw [runSynch, hfa] at h
      simp at h
    | none =>
      rw [runSynch, hfa] at h ⊢
      simp only at h ⊢
      obtain ⟨ht, hw⟩ := ih (i + 1) w1 h
      refine ⟨?_, ?_⟩
      · rw [ht, List.length_cons, List.range'_succ i fs.length 1]
        simp
      · rw [hw, List.foldl_cons, hfa]

/-- C1: for a Synchronous-policy signal with handlers H1..Hn connected in
that order, every single emit call that completes without an exception
invokes H1 with the payload and runs it to completion, then H2, ..., then
Hn, in exactly that connection order: the invocation trace is handler
indices 0..n-1 in order, each receiving the payload, and the final world
is the sequential fold of the handlers, so handler N+1 starts from the
world handler N finished with. -/
theorem synch_emit_in_connection_order (s : signal σ α ε) (a : α) (w : σ)
    (h : (s.emitSynch a w).2.exc = none) :
    (s.emitSynch a w).2.trace = (List.range s.funcs.length).map (fun i => (i, a)) ∧
    (s.emitSynch a w).2.world = s.funcs.foldl (fun w f => (f a w).1) w := by
  have hr := runSynch_noerr a s.funcs 0 w h
  rw [List.range_eq_range']
  exact hr

/-- Witness for C1: a concrete synchronous signal with two logging
handlers, emitted with payload 5 from the empty log. -/
theorem synch_emit_in_connection_order_witness :
    ((signal.mk [slotLog, slotLog]).emitSynch 5 []).2.trace =
      (List.range (signal.mk [slotLog, slotLog]).funcs.length).map (fun i => (i, 5)) ∧
    ((signal.mk [slotLog, slotLog]).emitSynch 5 []).2.world =
      (signal.mk [slotLog, slotLog]).funcs.foldl (fun w f => (f 5 w).1) [] :=
  synch_emit_in_connection_order (signal.mk [slotLog, slotLog]) 5 [] rfl

/-- C4: emitting a signal with zero connected handlers, under either
policy, invokes no handler, raises nothing, and leaves both the signal
and the world exactly as they were. -/
theorem emit_no_handlers_noop (s : signal σ α ε) (a : α) (w : σ)
    (sched : List Nat) (h : s.funcs = []) :
    s.emitSynch a w = (s, ⟨w, [], none⟩) ∧
    s.emitAsynch sched a w = (s, ⟨w, [], none⟩) := by
  obtain ⟨fs⟩ := s
  cases h
  exact ⟨rfl, by simp [signal.emitAsynch, runSched_nil]⟩

/-- Witness for C4: a fresh signal with no handlers, a payload, a world
and an arbitrary nonempty schedule. -/
theorem emit_no_handlers_noop_witness :
    (signal.mk ([] : List (Slot (List Nat) Nat Unit))).emitSynch 5 [9] =
      (signal.mk [], ⟨[9], [], none⟩) ∧
    (signal.mk ([] : List (Slot (List Nat) Nat Unit))).emitAsynch [0, 1] 5 [9] =
      (signal.mk [], ⟨[9], [], none⟩) :=
  emit_no_handlers_noop (signal.mk []) 5 [9] [0, 1] rfl

/-- C8: the spec scenario, deterministically.  A synchronous signal of one
integer parameter with two handlers that tag the payload with A and B in
connection order: emit(7) from the empty log yields exactly the log
[(A,7), (B,7)], and from any initial log it yields that log appended —
the result is a function of the initial state alone, because the
synchronous semantics takes no scheduler input, so any two runs from the
same initial state produce the same log. -/
theorem synch_scenario_deterministic_log :
    (sigAB.emitSynch 7 []).2.world = [("A", 7), ("B", 7)] ∧
    ∀ w : List (String × Int),
      (sigAB.emitSynch 7 w).2.world = w ++ [("A", 7), ("B", 7)] := by
  constructor
  · rfl
  · intro w
    simp [sigAB, signal.connect, signal.emitSynch, runSynch, tagSlot]

/-- C10: emit never modifies the signal's own state: under either policy
(and whether or not a handler raises), the signal component of emit's
result — in particular its funcs vector — is the receiver unchanged.
Handlers act only on the shared world, so re-entrant handlers that call
connect or emit on the same signal are outside this model, matching the
claim's precondition. -/
theorem emit_frame_funcs_unchanged (s : signal σ α ε) (a : α) (w : σ)
    (sched : List Nat) :
    (s.emitSynch a w).1 = s ∧ ((s.emitSynch a w).1).funcs = s.funcs ∧
    (s.emitAsynch sched a w).1 = s ∧ ((s.emitAsynch sched a w).1).funcs = s.funcs :=
  ⟨rfl, rfl, rfl, rfl⟩

/-- When no handler of the vector ever raises on this payload, a
synchronous emit raises nothing. -/
theorem runSynch_exc_none_of_noerr (a : α) (fs : List (Slot σ α ε)) (i : Nat)
    (w : σ) (h : ∀ f ∈ fs, ∀ w1, (f a w1).2 = none) :
    (runSynch a fs i w).exc = none := by
  induction fs generalizing i w with
  | nil => rfl
  | cons f fs ih =>
    rcases hfa : f a w with ⟨w1, e1⟩
    have he : e1 = none := by
      have := h f (List.mem_cons_self f fs) w
      rwa [hfa] at this
    subst he
    rw [runSynch, hfa]
    exact ih (i + 1) w1 (fun g hg w2 => h g (List.mem_cons_of_mem f hg) w2)

/-- Whether or not a handler raises, the trace of a synchronous emit is an
initial segment of the handler indices in vector order, each invocation
receiving the payload. -/
theorem runSynch_trace_shape (a : α) (fs : List (Slot σ α ε)) (i : Nat)
    (w : σ) :
    ∃ m, m ≤ fs.length ∧
      (runSynch a fs i w).trace = (List.range' i m).map (fun j => (j, a)) := by
  induction fs generalizing i w with
  | nil => exact ⟨0, Nat.le_refl 0, rfl⟩
  | cons f fs ih =>
    rcases hfa : f a w with ⟨w1, e1⟩
    cases e1 with
    | some e =>
      refine ⟨1, Nat.succ_le_succ (Nat.zero_le _), ?_⟩
      rw [runSynch, hfa]
      simp [List.range'_succ]
    | none =>
      obtain ⟨m, hm, ht⟩ := ih (i + 1) w1
      refine ⟨m + 1, Nat.succ_le_succ hm, ?_⟩
      rw [runSynch, hfa]
      simp only [List.range'_succ, List.map_cons]
      rw [← ht]

/-- Counting invocations distributes over trace concatenation. -/
theorem countIdx_append (t1 t2 : List (Nat × α)) (j : Nat) :
    countIdx (t1 ++ t2) j = countIdx t1 j + countIdx t2 j := by
  simp [countIdx, List.count_append]

/-- Counting an index over a trace that pairs a list of indices with one
payload counts the index in that list. -/
theorem countIdx_map_pair (l : List Nat) (a : α) (j : Nat) :
    countIdx (l.map (fun i => (i, a))) j = l.count j := by
  rw [countIdx, List.map_map]
  rw [show (Prod.fst ∘ fun i => ((i, a) : Nat × α)) = id from rfl, List.map_id]

/-- One synchronous emit invokes no handler more than once. -/
theorem countIdx_runSynch_le_one (a : α) (fs : List (Slot σ α ε)) (i : Nat)
    (w : σ) (j : Nat) : countIdx (runSynch a fs i w).trace j ≤ 1 := by
  obtain ⟨m, _, ht⟩ := runSynch_trace_shape a fs i w
  rw [ht, countIdx_map_pair]
  exact List.nodup_iff_count_le_one.mp (List.nodup_range' i m) j

/-- Appending callbacks one at a time through connect yields the funcs
vector extended by exactly those callbacks, in call order. -/
theorem connectAll_funcs (s : signal σ α ε) (cbs : List (Slot σ α ε)) :
    (connectAll s cbs).funcs = s.funcs ++ cbs := by
  induction cbs generalizing s with
  | nil => simp [connectAll]
  | cons c cs ih =>
    show (connectAll (s.connect c) cs).funcs = _
    rw [ih]
    simp [signal.connect]

/-- When every scheduled task index is in range, the asynchronous run
executes exactly the scheduled tasks, in schedule order, each invocation
receiving the payload. -/
theorem runSched_trace_all (fs : List (Slot σ α ε)) (a : α)
    (sched : List Nat) (w : σ) (h : ∀ i ∈ sched, i < fs.length) :
    (runSched fs a sched w).2.1 = sched.map (fun i => (i, a)) := by
  induction sched generalizing w with
  | nil => rfl
  | cons i is ih =>
    have hi : i < fs.length := h i (List.mem_cons_self i is)
    rw [runSched, List.get?_eq_get hi]
    simp only [List.map_cons]
    rw [ih _ (fun j hj => h j (List.mem_cons_of_mem i hj))]

/-- A synchronous emit over the same callback registered M times, when
that callback never raises on this payload: every registration is invoked
once, in registration order, and the world is the M-fold iterate of the
handler. -/
theorem runSynch_replicate (f : Slot σ α ε) (a : α) (M i : Nat) (w : σ)
    (h : ∀ w1, (f a w1).2 = none) :
    (runSynch a (List.replicate M f) i w).trace =
      (List.range' i M).map (fun j => (j, a)) ∧
    (runSynch a (List.replicate M f) i w).world =
      (fun w1 => (f a w1).1)^[M] w := by
  induction M generalizing i w with
  | zero => exact ⟨rfl, rfl⟩
  | succ M ih =>
    rcases hfa : f a w with ⟨w1, e1⟩
    have he : e1 = none := by have := h w; rwa [hfa] at this
    subst he
    rw [List.replicate_succ, runSynch, hfa]
    simp only
    obtain ⟨ht, hw⟩ := ih (i + 1) w1
    constructor
    · simp only [List.range'_succ, List.map_cons]
      rw [ht]
    · rw [hw, Function.iterate_succ_apply]
      congr 1
      simp [hfa]

/-- Fail-fast shape of a synchronous emit: if the handlers before index k
all return normally and the handler at index k then raises, the emit stops
there — exactly handlers 0..k (offset by the start index) are invoked and
the exception unwinds to the caller. -/
theorem runSynch_fail_fast (a : α) (fs : List (Slot σ α ε)) (k i : Nat)
    (w : σ) (hk : k < fs.length) (e : ε)
    (hpre : (runSynch a (fs.take k) i w).exc = none)
    (hf : ((fs.get ⟨k, hk⟩) a (runSynch a (fs.take k) i w).world).2 = some e) :
    (runSynch a fs i w).exc = some e ∧
    (runSynch a fs i w).trace = (List.range' i (k + 1)).map (fun j => (j, a)) := by
  induction fs generalizing k i w with
  | nil => exact absurd hk (Nat.not_lt_zero k)
  | cons f fs ih =>
    cases k with
    | zero =>
      rcases hfa : f a w with ⟨w1, e1⟩
      have he : e1 = some e := by
        have hf0 : (f a w).2 = some e := hf
        rwa [hfa] at hf0
      subst he
      rw [runSynch, hfa]
      simp [List.range'_succ]
    | succ k =>
      have hk1 : k < fs.length := Nat.lt_of_succ_lt_succ hk
      rcases hfa : f a w with ⟨w1, e1⟩
      cases e1 with
      | some e0 =>
        rw [List.take_succ_cons, runSynch, hfa] at hpre
        simp at hpre
      | none =>
        rw [List.take_succ_cons, runSynch, hfa] at hpre hf
        simp only at hpre hf
        obtain ⟨hexc, htr⟩ := ih k (i + 1) w1 hk1 hpre hf
        rw [runSynch, hfa]
        simp only
        refine ⟨hexc, ?_⟩
        rw [htr, List.range'_succ i (k + 1) 1, List.map_cons]

/-- K failure-free synchronous emits produce exactly the expected trace:
per payload, one invocation of every handler in vector order with that
payload. -/
theorem runSynchK_trace_noerr (fs : List (Slot σ α ε)) (as : List α) (w : σ)
    (h : ∀ f ∈ fs, ∀ (a : α) (w1 : σ), (f a w1).2 = none) :
    (runSynchK fs as w).2 = fullTrace fs.length as := by
  induction as generalizing w with
  | nil => rfl
  | cons a as ih =>
    have hexc := runSynch_exc_none_of_noerr a fs 0 w (fun f hf w1 => h f hf a w1)
    obtain ⟨ht, _⟩ := runSynch_noerr a fs 0 w hexc
    rw [runSynchK, fullTrace]
    simp only
    rw [ht, ← List.range_eq_range', ih]

/-- Counting an index in the expected K-emit trace: a handler in range is
invoked exactly once per emit call. -/
theorem countIdx_fullTrace (n : Nat) (as : List α) (i : Nat) (hi : i < n) :
    countIdx (fullTrace n as) i = as.length := by
  induction as with
  | nil => rfl
  | cons a as ih =>
    rw [fullTrace, countIdx_append, countIdx_map_pair, ih,
      List.count_eq_one_of_mem (List.nodup_range n) (List.mem_range.mpr hi)]
    simp [Nat.add_comm]

/-- Across K synchronous emit calls, no handler is invoked more than K
times, whether or not handlers raise. -/
theorem countIdx_runSynchK_le (fs : List (Slot σ α ε)) (as : List α) (w : σ)
    (j : Nat) : countIdx (runSynchK fs as w).2 j ≤ as.length := by
  induction as generalizing w with
  | nil => exact Nat.le_refl 0
  | cons a as ih =>
    rw [runSynchK]
    simp only
    rw [countIdx_append]
    have h1 := countIdx_runSynch_le_one a fs 0 w j
    have h2 := ih (runSynch a fs 0 w).world
    simp only [List.length_cons]
    omega

/-- One asynchronous emit under a full schedule invokes every in-range
handler exactly once, whether or not handlers raise. -/
theorem countIdx_runSched_perm (fs : List (Slot σ α ε)) (a : α)
    (sched : List Nat) (w : σ) (j : Nat)
    (hp : sched.Perm (List.range fs.length)) (hj : j < fs.length) :
    countIdx (runSched fs a sched w).2.1 j = 1 := by
  have hmem : ∀ i ∈ sched, i < fs.length := fun i hi =>
    List.mem_range.mp (hp.mem_iff.mp hi)
  rw [runSched_trace_all fs a sched w hmem, countIdx_map_pair, hp.count_eq]
  exact List.count_eq_one_of_mem (List.nodup_range _) (List.mem_range.mpr hj)

/-- Across K asynchronous emit calls, each under a full schedule, every
in-range handler is invoked exactly K times. -/
theorem countIdx_runAsynchK (fs : List (Slot σ α ε))
    (emits : List (List Nat × α)) (w : σ) (j : Nat)
    (hp : ∀ p ∈ emits, p.1.Perm (List.range fs.length)) (hj : j < fs.length) :
    countIdx (runAsynchK fs emits w).2 j = emits.length := by
  induction emits generalizing w with
  | nil => rfl
  | cons p ps ih =>
    rw [runAsynchK]
    simp only
    rw [countIdx_append,
      countIdx_runSched_perm fs p.2 p.1 w j (hp p (List.mem_cons_self p ps)) hj,
      ih _ (fun q hq => hp q (List.mem_cons_of_mem p hq))]
    simp [Nat.add_comm]

/-- C2: fan-out completeness.  For a signal with N connected handlers and
K emit calls with no connect interleaved: when no handler raises, each of
the N handlers is invoked exactly K times, once per synchronous emit call,
and each invocation receives that call's payload (the combined trace is
exactly the expected one); unconditionally, no handler is invoked more
times than the number of emit calls made; and under the asynchronous
policy, each emit running its full schedule, each handler is likewise
invoked exactly once per call. -/
theorem fanout_exactly_once_per_emit (s : signal σ α ε) (as : List α) (w : σ) :
    ((∀ f ∈ s.funcs, ∀ (a : α) (w1 : σ), (f a w1).2 = none) →
      (runSynchK s.funcs as w).2 = fullTrace s.funcs.length as ∧
      ∀ i, i < s.funcs.length →
        countIdx (runSynchK s.funcs as w).2 i = as.length) ∧
    (∀ j, countIdx (runSynchK s.funcs as w).2 j ≤ as.length) ∧
    (∀ emits : List (List Nat × α),
      (∀ p ∈ emits, p.1.Perm (List.range s.funcs.length)) →
      ∀ i, i < s.funcs.length →
        countIdx (runAsynchK s.funcs emits w).2 i = emits.length) := by
  refine ⟨fun hne => ?_, fun j => countIdx_runSynchK_le s.funcs as w j,
    fun emits hp i hi => countIdx_runAsynchK s.funcs emits w i hp hi⟩
  have ht := runSynchK_trace_noerr s.funcs as w hne
  exact ⟨ht, fun i hi => by rw [ht]; exact countIdx_fullTrace s.funcs.length as i hi⟩

/-- Witness for C2: two logging handlers, two synchronous emits with
payloads 3 and 4, and two asynchronous emits under full schedules. -/
theorem fanout_exactly_once_per_emit_witness :
    (runSynchK (signal.mk [slotLog, slotLog]).funcs [3, 4] []).2 =
      fullTrace (signal.mk [slotLog, slotLog]).funcs.length [3, 4] ∧
    countIdx (runSynchK (signal.mk [slotLog, slotLog]).funcs [3, 4] []).2 0 = 2 ∧
    countIdx (runAsynchK (signal.mk [slotLog, slotLog]).funcs
      [([1, 0], 3), ([0, 1], 4)] []).2 1 = 2 := by
  have h := fanout_exactly_once_per_emit (signal.mk [slotLog, slotLog]) [3, 4] []
  have hne : ∀ f ∈ (signal.mk [slotLog, slotLog]).funcs,
      ∀ (a : Nat) (w1 : List Nat), (f a w1).2 = none := by
    intro f hf a w1
    simp [signal.mk] at hf
    subst hf
    rfl
  refine ⟨(h.1 hne).1, (h.1 hne).2 0 (by decide), ?_⟩
  refine h.2.2 [([1, 0], 3), ([0, 1], 4)] ?_ 1 (by decide)
  intro p hp
  simp [signal.mk] at hp
  rcases hp with h1 | h1 <;> subst h1 <;> decide

/-- C3: connect always succeeds (it is total) and appends the callback at
the end of the funcs vector; M connect calls on a fresh signal leave it
with exactly those M handlers in call order; emit under either policy
never removes or reorders a connected handler; and a synchronous emit
after a connect includes the newly appended handler (shown here for a
failure-free emit, where every handler is invoked). -/
theorem connect_appends_and_emit_preserves (s : signal σ α ε)
    (f : Slot σ α ε) (cbs : List (Slot σ α ε)) (a : α) (w : σ)
    (sched : List Nat) :
    (s.connect f).funcs = s.funcs ++ [f] ∧
    (connectAll (signal.mk []) cbs).funcs = cbs ∧
    ((s.emitSynch a w).1).funcs = s.funcs ∧
    ((s.emitAsynch sched a w).1).funcs = s.funcs ∧
    ((∀ g ∈ (s.connect f).funcs, ∀ w1, (g a w1).2 = none) →
      (s.funcs.length, a) ∈ ((s.connect f).emitSynch a w).2.trace) := by
  refine ⟨rfl, by simpa using connectAll_funcs (signal.mk []) cbs, rfl, rfl,
    fun hne => ?_⟩
  have hexc := runSynch_exc_none_of_noerr a (s.connect f).funcs 0 w
    (fun g hg w1 => hne g hg w1)
  obtain ⟨ht, _⟩ := runSynch_noerr a (s.connect f).funcs 0 w hexc
  show (s.funcs.length, a) ∈ (runSynch a (s.connect f).funcs 0 w).trace
  rw [ht, ← List.range_eq_range']
  have hlen : (s.connect f).funcs.length = s.funcs.length + 1 := by
    simp [signal.connect]
  rw [hlen]
  exact List.mem_map_of_mem _ (List.mem_range.mpr (Nat.lt_succ_self _))

/-- Witness for C3: a signal with one logging handler, a second logging
handler connected, two further callbacks, a payload and a schedule. -/
theorem connect_appends_and_emit_preserves_witness :
    ((signal.mk [slotLog]).connect slotLog).funcs =
      (signal.mk [slotLog]).funcs ++ [slotLog] ∧
    (connectAll (signal.mk []) [slotLog, slotLog]).funcs = [slotLog, slotLog] ∧
    (1, 5) ∈ (((signal.mk [slotLog]).connect slotLog).emitSynch 5 []).2.trace := by
  have h := connect_appends_and_emit_preserves (signal.mk [slotLog]) slotLog
    [slotLog, slotLog] 5 [] [0]
  refine ⟨h.1, h.2.1, ?_⟩
  refine h.2.2.2.2 ?_
  intro g hg w1
  simp [signal.connect, signal.mk] at hg
  subst hg
  rfl

/-- C5: asynchronous join.  A single asynchronous emit launches all N
handler invocations as concurrent tasks; whatever interleaving the
scheduler chooses (any permutation of the task indices), by the time emit
returns every one of the N invocations has completed: the trace lists
exactly the scheduled tasks, has length N, and contains the invocation of
every handler with the emitted payload.  Concurrency is modelled by the
scheduler-chosen interleaving; the join is the futures vector destructor
blocking on every task before emit returns. -/
theorem asynch_emit_joins_all_before_return (s : signal σ α ε) (a : α)
    (w : σ) (sched : List Nat) (h : sched.Perm (List.range s.funcs.length)) :
    (s.emitAsynch sched a w).2.trace = sched.map (fun i => (i, a)) ∧
    (s.emitAsynch sched a w).2.trace.length = s.funcs.length ∧
    ∀ i, i < s.funcs.length → (i, a) ∈ (s.emitAsynch sched a w).2.trace := by
  have hmem : ∀ i ∈ sched, i < s.funcs.length := fun i hi =>
    List.mem_range.mp (h.mem_iff.mp hi)
  have htr : (s.emitAsynch sched a w).2.trace =
      sched.map (fun i => (i, a)) :=
    runSched_trace_all s.funcs a sched w hmem
  refine ⟨htr, ?_, fun i hi => ?_⟩
  · rw [htr, List.length_map, h.length_eq, List.length_range]
  · rw [htr]
    exact List.mem_map_of_mem _ (h.mem_iff.mpr (List.mem_range.mpr hi))

/-- Witness for C5: two logging handlers emitted asynchronously under the
reversed schedule. -/
theorem asynch_emit_joins_all_before_return_witness :
    ((signal.mk [slotLog, slotLog]).emitAsynch [1, 0] 5 []).2.trace =
      [1, 0].map (fun i => (i, 5)) ∧
    ((signal.mk [slotLog, slotLog]).emitAsynch [1, 0] 5 []).2.trace.length = 2 ∧
    ∀ i, i < 2 →
      (i, 5) ∈ ((signal.mk [slotLog, slotLog]).emitAsynch [1, 0] 5 []).2.trace :=
  asynch_emit_joins_all_before_return (signal.mk [slotLog, slotLog]) 5 [] [1, 0]
    (by decide)

/-- C6: synchronous fail-fast.  If, during a synchronous emit, the
handlers before index k return normally and the handler at index k raises,
then no handler after position k is invoked in that call (the trace is
exactly indices 0..k) and the exception propagates out of emit to the
emitter. -/
theorem synch_exception_fail_fast (s : signal σ α ε) (a : α) (w : σ)
    (k : Nat) (hk : k < s.funcs.length) (e : ε)
    (hpre : (runSynch a (s.funcs.take k) 0 w).exc = none)
    (hf : ((s.funcs.get ⟨k, hk⟩) a (runSynch a (s.funcs.take k) 0 w).world).2 =
      some e) :
    (s.emitSynch a w).2.exc = some e ∧
    (s.emitSynch a w).2.trace = (List.range (k + 1)).map (fun i => (i, a)) := by
  have hr := runSynch_fail_fast a s.funcs k 0 w hk e hpre hf
  rw [List.range_eq_range']
  exact hr

/-- Witness for C6: three handlers, the middle one raising: handlers 0 and
1 are invoked, handler 2 is not, and the exception escapes. -/
theorem synch_exception_fail_fast_witness :
    ((signal.mk [slotLog, slotFail, slotLog]).emitSynch 5 []).2.exc = some () ∧
    ((signal.mk [slotLog, slotFail, slotLog]).emitSynch 5 []).2.trace =
      (List.range 2).map (fun i => (i, 5)) :=
  synch_exception_fail_fast (signal.mk [slotLog, slotFail, slotLog]) 5 [] 1
    (by decide) () rfl rfl

/-- C7: what the code actually does when an asynchronous handler raises,
shown at a concrete input.  With two handlers of which the first raises,
an asynchronous emit still runs every task to completion — both
invocations are in the trace and both side effects are in the world — and
the exception is captured in the raising task's future (the collected
error list is [()]); but the futures vector destructor discards it, so
emit reports no exception to the emitter: the failure is silently
dropped, not re-signaled as the claim states. -/
theorem asynch_exception_silently_dropped :
    ((signal.mk [slotFail, slotLog]).emitAsynch [0, 1] 5 []).2.trace =
      [(0, 5), (1, 5)] ∧
    ((signal.mk [slotFail, slotLog]).emitAsynch [0, 1] 5 []).2.world = [5, 5] ∧
    (runSched (signal.mk [slotFail, slotLog]).funcs 5 [0, 1] []).2.2 = [()] ∧
    ((signal.mk [slotFail, slotLog]).emitAsynch [0, 1] 5 []).2.exc = none :=
  ⟨rfl, rfl, rfl, rfl⟩

/-- C9: connecting the same callback value M times creates one handler
entry per connect call — the funcs vector is M copies of the callback in
the positions given by the connect calls — and a synchronous emit whose
handler never raises invokes it once per registration, M times in total,
the world ending as the M-fold iterate of the handler. -/
theorem duplicate_connect_invokes_per_registration (f : Slot σ α ε)
    (M : Nat) (a : α) (w : σ) :
    (connectAll (signal.mk []) (List.replicate M f)).funcs =
      List.replicate M f ∧
    ((∀ w1, (f a w1).2 = none) →
      ((connectAll (signal.mk []) (List.replicate M f)).emitSynch a w).2.trace =
        (List.range M).map (fun i => (i, a)) ∧
      ((connectAll (signal.mk []) (List.replicate M f)).emitSynch a w).2.world =
        (fun w1 => (f a w1).1)^[M] w) := by
  have hfuncs : (connectAll (signal.mk []) (List.replicate M f)).funcs =
      List.replicate M f := by
    simpa using connectAll_funcs (signal.mk []) (List.replicate M f)
  refine ⟨hfuncs, fun hne => ?_⟩
  obtain ⟨ht, hw⟩ := runSynch_replicate f a M 0 w hne
  show (runSynch a (connectAll (signal.mk []) (List.replicate M f)).funcs 0 w).trace = _ ∧
    (runSynch a (connectAll (signal.mk []) (List.replicate M f)).funcs 0 w).world = _
  rw [hfuncs, List.range_eq_range']
  exact ⟨ht, hw⟩

/-- Witness for C9: a logging handler connected three times and emitted
once with payload 5: three invocations, one per registration. -/
theorem duplicate_connect_invokes_per_registration_witness :
    (connectAll (signal.mk []) (List.replicate 3 slotLog)).funcs =
      List.replicate 3 slotLog ∧
    ((connectAll (signal.mk []) (List.replicate 3 slotLog)).emitSynch 5 []).2.trace =
      (List.range 3).map (fun i => (i, 5)) := by
  have h := duplicate_connect_invokes_per_registration slotLog 3 5 []
  exact ⟨h.1, (h.2 (fun w1 => rfl)).1⟩

end signals
